import Mathlib

/-!
Shallow embedding of the in-memory search/ranking component (`SearchService`
in the Spring variant of the repository): query normalization, relevance
scoring, highlighting, index maintenance and paginated search.

Java strings are modelled as `List Char`; `String.toLowerCase` is modelled
as per-character ASCII lowercasing (all behaviour relevant to the claims is
ASCII). The index map is modelled as its iteration sequence: a list of
entries; claims quantify over arbitrary sequences, covering every possible
iteration order of the underlying `ConcurrentHashMap`.
-/

namespace BlogSearch

/-- Java strings, modelled as lists of characters. -/
abbrev Str := List Char

/-- `String.toLowerCase`, per character (ASCII). -/
def toLower (s : Str) : Str := s.map Char.toLower

/-- The characters removed by Java `String.trim` (code points `≤ U+0020`). -/
def isJavaTrimmable (c : Char) : Bool := c.toNat ≤ 32

/-- The characters of the Java regex class `\s`: space, tab, newline,
vertical tab, form feed, carriage return. -/
def isRegexSpace (c : Char) : Bool :=
  c = ' ' || c = '\t' || c = '\n' || c = '\x0b' || c = '\x0c' || c = '\r'

/-- Java `String.trim`: drop leading and trailing characters `≤ U+0020`. -/
def trimJava (s : Str) : Str :=
  ((s.dropWhile isJavaTrimmable).reverse.dropWhile isJavaTrimmable).reverse

/-- Helper for `collapseSpaces`: the flag records whether we are inside a
whitespace run that has already emitted its single replacement space. -/
def collapseSpacesAux : Str → Bool → Str
  | [], _ => []
  | c :: rest, inRun =>
    if isRegexSpace c then
      (if inRun then [] else [' ']) ++ collapseSpacesAux rest true
    else
      c :: collapseSpacesAux rest false

/-- Java `replaceAll("\\s+", " ")`: every maximal run of `\s` characters is
replaced by a single space. -/
def collapseSpaces (s : Str) : Str := collapseSpacesAux s false

/-- `normalizeQuery` from the source: `query.trim().replaceAll("\\s+", " ").toLowerCase()`. -/
def normalizeQuery (query : Str) : Str := toLower (collapseSpaces (trimJava query))

/-- Java `String.contains`: does `needle` occur as a contiguous substring of
`hay`?  (`hay.contains(needle)` in the source.) -/
def containsStr : (hay : Str) → (needle : Str) → Bool
  | [], needle => needle.isEmpty
  | c :: rest, needle => needle.isPrefixOf (c :: rest) || containsStr rest needle

/-- One pattern character of the interpolated regex against one text
character, under the `(?i)` flag: `.` is the wildcard (Java's `.` excludes
line terminators; the texts of the concrete inputs below contain none);
every other character matches itself case-insensitively.  (The source builds the pattern by
splicing the raw query into `"(?i)(" + query + ")"`; this embedding covers
queries whose characters are literals or the `.` metacharacter — see
`regexPlain` / `regexSafe` for the fragments the theorems quantify over.) -/
def regexCharMatches (p c : Char) : Bool := p = '.' || p.toLower = c.toLower

/-- Does the interpolated pattern match a prefix of the text? -/
def regexPrefixMatch : (pat : Str) → (text : Str) → Bool
  | [], _ => true
  | _ :: _, [] => false
  | p :: ps, c :: cs => regexCharMatches p c && regexPrefixMatch ps cs

/-- Queries inside the regex fragment this embedding models: no
metacharacter other than `.` occurs. -/
def regexSafe (q : Str) : Bool :=
  q.all fun c => !(c ∈ ['\\', '[', ']', '(', ')', '{', '}', '*', '+', '?', '^', '$', '|'])

/-- Queries that the interpolated regex treats as plain literals: no regex
metacharacter at all, `.` included. -/
def regexPlain (q : Str) : Bool := regexSafe q && !('.' ∈ q)

/-- Helper for `highlightText`, embedding `replaceAll` semantics: scan left
to right; at each position (once `skip` pending characters of a previous
match have been passed over) try the pattern; on a match wrap the matched
span in `<mark>…</mark>` — group `$1` is the original text, so casing is
preserved — and resume after it; otherwise emit the character unchanged. -/
def highlightAux (q : Str) : Str → Nat → Str
  | [], _ => []
  | _ :: rest, skip + 1 => highlightAux q rest skip
  | c :: rest, 0 =>
    if !q.isEmpty && regexPrefixMatch q (c :: rest) then
      "<mark>".toList ++ (c :: rest).take q.length ++ "</mark>".toList
        ++ highlightAux q rest (q.length - 1)
    else
      c :: highlightAux q rest 0

/-- `highlightText` from the source:
`text.replaceAll("(?i)(" + query + ")", "<mark>$1</mark>")`. -/
def highlightText (text query : Str) : Str := highlightAux query text 0

/-- Case-insensitive prefix test on plain text (no regex reading of the
query), used by the spec-side highlighter. -/
def ciPrefixMatch (q text : Str) : Bool := (toLower q).isPrefixOf (toLower text)

/-- Helper for `specHighlight`; same scanning structure as `highlightAux`
but matching the query literally (case-insensitively). -/
def specHighlightAux (q : Str) : Str → Nat → Str
  | [], _ => []
  | _ :: rest, skip + 1 => specHighlightAux q rest skip
  | c :: rest, 0 =>
    if !q.isEmpty && ciPrefixMatch q (c :: rest) then
      "<mark>".toList ++ (c :: rest).take q.length ++ "</mark>".toList
        ++ specHighlightAux q rest (q.length - 1)
    else
      c :: specHighlightAux q rest 0

/-- Follows the spec's words: wrap every (leftmost, non-overlapping)
case-insensitive occurrence of the query as a contiguous substring in the
highlight marker, preserving the original casing of the matched span and
leaving all other characters unchanged; a text with no occurrence comes
back unchanged. -/
def specHighlight (text q : Str) : Str := specHighlightAux q text 0

/-- The `SearchIndex` entry class from the source. -/
structure SearchIndex where
  id : Nat
  title : Str
  content : Str
  excerpt : Str
  tags : List Str
deriving DecidableEq

/-- The `SearchResult` class from the source. Every score is an exact sum of
the weights 3.0, 1.0 and 2.0 (a `double` holding a small integer), so scores
are represented as naturals; `Double.compare` on these values coincides with
the order on `ℕ`. -/
structure SearchResult where
  id : Nat
  title : Str
  content : Str
  excerpt : Str
  highlightedTitle : Str
  highlightedContent : Str
  score : Nat
deriving DecidableEq

/-- The fields of a `Post` that `indexPost` reads. -/
structure Post where
  id : Nat
  title : Str
  content : Str
  excerpt : Str
  tags : List Str
deriving DecidableEq

/-- `calculateRelevance` from the source: +3.0 for a title hit, +1.0 for a
content hit, +2.0 if some tag hits (the `for`/`break` loop adds the tag
bonus at most once — embedded as `List.any`); hit fields are highlighted,
missed fields are returned as stored. -/
def calculateRelevance (index : SearchIndex) (query : Str) : SearchResult :=
  let titleHit := containsStr (toLower index.title) (toLower query)
  let contentHit := containsStr (toLower index.content) (toLower query)
  let tagHit := index.tags.any fun tag => containsStr (toLower tag) (toLower query)
  { id := index.id
    title := index.title
    content := index.content
    excerpt := index.excerpt
    highlightedTitle := if titleHit then highlightText index.title query else index.title
    highlightedContent := if contentHit then highlightText index.content query else index.content
    score := (if titleHit then 3 else 0) + (if contentHit then 1 else 0)
      + (if tagHit then 2 else 0) }

/-- The descending-score comparator `(a, b) -> Double.compare(b.getScore(), a.getScore())`:
`a` may come before `b` iff `a`'s score is at least `b`'s. -/
def scoreGe (a b : SearchResult) : Prop := b.score ≤ a.score

instance : DecidableRel scoreGe := fun a b => inferInstanceAs (Decidable (b.score ≤ a.score))

instance : IsTotal SearchResult scoreGe := ⟨fun a b => le_total b.score a.score⟩

instance : IsTrans SearchResult scoreGe := ⟨fun _ _ _ h₁ h₂ => le_trans h₂ h₁⟩

/-- The in-memory index map, modelled as its iteration sequence. -/
abbrev SearchState := List SearchIndex

/-- `performSearch` from the source: score every indexed document, keep
those with positive score, sort by score descending.  `Stream.sorted` on an
ordered stream is a stable sort, embedded as (stable) insertion sort. -/
def performSearch (st : SearchState) (query : Str) : List SearchResult :=
  List.insertionSort scoreGe
    ((st.map fun index => calculateRelevance index query).filter fun r => decide (0 < r.score))

/-- The errors the embedded operations can raise: `emptyQuery` is the
`IllegalArgumentException` for a blank query; `outOfRange` is the exception
`List.subList` throws when the pagination offset exceeds the result count. -/
inductive SearchError where
  | emptyQuery : SearchError
  | outOfRange : SearchError
deriving DecidableEq

/-- The page returned by `searchPosts`: the `PageImpl` content plus its
total element count. -/
structure SearchPage where
  results : List SearchResult
  totalMatches : Nat
deriving DecidableEq

/-- `searchPosts` from the source: reject blank queries, normalize, run
`performSearch`, then take `subList(start, end)` with
`start = page * pageSize` and `end = min(start + pageSize, results.size())`;
`subList` fails when `start > end`. The method never writes the index map,
so it is a pure function of the state. -/
def searchPosts (st : SearchState) (query : Str) (page pageSize : Nat) :
    Except SearchError SearchPage :=
  if (trimJava query).isEmpty then
    .error .emptyQuery
  else
    let normalizedQuery := normalizeQuery query
    let results := performSearch st normalizedQuery
    let start := page * pageSize
    let stop := min (start + pageSize) results.length
    if start ≤ stop then
      .ok { results := (results.drop start).take (stop - start)
            totalMatches := results.length }
    else
      .error .outOfRange

/-- The index entry `indexPost` builds from a post (the `SearchIndex.builder()`
call in the source). -/
def postEntry (post : Post) : SearchIndex :=
  { id := post.id, title := post.title, content := post.content
    excerpt := post.excerpt, tags := post.tags }

/-- `indexPost` from the source: build the entry and `map.put(id, entry)` —
replace the entry for that id if present, otherwise add it.  No validation
of any field is performed. -/
def indexPost (st : SearchState) (post : Post) : SearchState :=
  if st.any fun e => e.id == post.id then
    st.map fun e => if e.id = post.id then postEntry post else e
  else
    st ++ [postEntry post]

/-- `removePostFromIndex` from the source: `map.remove(id)` — drop the entry
with that id if present; total, never an error. -/
def removePostFromIndex (st : SearchState) (postId : Nat) : SearchState :=
  st.filter fun e => e.id != postId

/-- Lookup of the entry stored under an id (reading the map). -/
def lookupId (st : SearchState) (i : Nat) : Option SearchIndex :=
  st.find? fun e => e.id == i

/-- The result list of a `searchPosts` call, `[]` when the call fails. -/
def searchResultsOf (st : SearchState) (query : Str) (page pageSize : Nat) :
    List SearchResult :=
  match searchPosts st query page pageSize with
  | .ok out => out.results
  | .error _ => []

/-- The `totalMatches` reported by a `searchPosts` call, `none` on failure. -/
def searchTotalOf (st : SearchState) (query : Str) (page pageSize : Nat) : Option Nat :=
  match searchPosts st query page pageSize with
  | .ok out => some out.totalMatches
  | .error _ => none

/-- The number of matching documents for a query over a state. -/
def searchTotal (st : SearchState) (query : Str) : Nat :=
  (performSearch st (normalizeQuery query)).length

/-- Case-insensitive-substring as the spec phrases it: the lowercased query
is an infix of the lowercased field. -/
def ciSubstring (q s : Str) : Prop := toLower q <:+: toLower s

instance (q s : Str) : Decidable (ciSubstring q s) :=
  List.decidableInfix (toLower q) (toLower s)

/-- Follows the spec's words for the relevance score: the sum of 3.0 for a
case-insensitive title substring, 1.0 for a content substring, and 2.0 —
added at most once — if the query is a substring of at least one tag. -/
def specRelevance (d : SearchIndex) (q : Str) : Nat :=
  (if ciSubstring q d.title then 3 else 0)
    + (if ciSubstring q d.content then 1 else 0)
    + (if ∃ t ∈ d.tags, ciSubstring q t then 2 else 0)

/-- An index entry with its `excerpt` field blanked; two entries agree on
everything but the excerpt iff their images under this map are equal. -/
def clearEntryExcerpt (e : SearchIndex) : SearchIndex :=
  { e with excerpt := [] }

/-- A search result with its `excerpt` field blanked. -/
def clearResultExcerpt (r : SearchResult) : SearchResult :=
  { r with excerpt := [] }

/-- First document of the spec's two-document scenario. -/
def demoDoc1 : SearchIndex :=
  { id := 1, title := "Spring Boot Guide".toList
    content := "Learn Spring Boot basics".toList
    excerpt := "guide".toList
    tags := ["java".toList, "spring-boot".toList] }

/-- Second document of the spec's two-document scenario. -/
def demoDoc2 : SearchIndex :=
  { id := 2, title := "Docker Tips".toList
    content := "Spring apps in containers".toList
    excerpt := "tips".toList
    tags := ["docker".toList] }

/-- The index state of the spec's two-document scenario. -/
def demoState : SearchState := [demoDoc1, demoDoc2]

/-- The document of the spec's highlighting example. -/
def demoApiDoc : SearchIndex :=
  { id := 3, title := "Building an API Gateway".toList
    content := "gateways".toList, excerpt := [], tags := [] }

/-- A document whose title contains the query `"a.a"` literally and also a
span (`"aba"`) that only the regex reading of the query matches. -/
def demoDotDoc : SearchIndex :=
  { id := 4, title := "aba a.a".toList, content := "x".toList
    excerpt := [], tags := [] }

/-! ## Bridging lemmas -/

theorem containsStr_iff (hay needle : Str) : containsStr hay needle = true ↔ needle <:+: hay := by
  induction hay with
  | nil =>
    simp [containsStr, List.isEmpty_iff]
  | cons c rest ih =>
    simp [containsStr, List.infix_cons_iff, List.isPrefixOf_iff_prefix, ih]

theorem containsStr_lower_eq (s q : Str) :
    containsStr (toLower s) (toLower q) = decide (ciSubstring q s) := by
  rcases h : containsStr (toLower s) (toLower q) with _ | _
  · have : ¬ ciSubstring q s := fun hc => by
      rw [(containsStr_iff (toLower s) (toLower q)).mpr hc] at h
      exact Bool.false_ne_true h.symm
    simp [this]
  · have : ciSubstring q s := (containsStr_iff (toLower s) (toLower q)).mp h
    simp [this]

/-! ## C1: the relevance score is the 3/1/2 sum of field matches -/

/-- C1: for every indexed document and non-blank query, the relevance score
computed during search equals the sum of 3.0 for a case-insensitive title
substring match on the normalized query, 1.0 for a content match, and 2.0 —
added at most once, the first matching tag short-circuiting — for a tag
match. -/
theorem C1_relevance_score (d : SearchIndex) (q : Str) (h : trimJava q ≠ []) :
    (calculateRelevance d (normalizeQuery q)).score = specRelevance d (normalizeQuery q) := by
  simp only [calculateRelevance, specRelevance, containsStr_lower_eq, List.any_eq_true,
    decide_eq_true_eq]

theorem C1_witness :
    trimJava ("spring".toList) ≠ []
      ∧ (calculateRelevance demoDoc1 (normalizeQuery ("spring".toList))).score
          = specRelevance demoDoc1 (normalizeQuery ("spring".toList)) :=
  ⟨by decide, C1_relevance_score demoDoc1 ("spring".toList) (by decide)⟩

/-! ## C7: EmptyQueryError exactly on blank queries -/

/-- C7: `searchPosts` fails with the empty-query error if and only if the
query is empty or all-whitespace after trimming.  (The source method never
writes the index map, so search has no side effect on the index by
construction; the embedding makes it a pure function of the state.) -/
theorem C7_emptyQuery_iff (st : SearchState) (q : Str) (page ps : Nat) :
    searchPosts st q page ps = Except.error SearchError.emptyQuery ↔ trimJava q = [] := by
  unfold searchPosts
  by_cases h : (trimJava q).isEmpty
  · simp [h, List.isEmpty_iff.mp h]
  · have hne : ¬ trimJava q = [] := fun hc => h (by simp [hc])
    simp only [h, Bool.false_eq_true, if_false]
    constructor
    · intro hc
      split at hc <;> exact absurd hc (by simp)
    · intro hc
      exact absurd hc hne

theorem C7_witness :
    searchPosts demoState ("   ".toList) 0 10 = Except.error SearchError.emptyQuery :=
  (C7_emptyQuery_iff demoState ("   ".toList) 0 10).mpr (by decide)

/-! ## C3: pagination beyond the matches -/

/-- C3: the claim says a `page * pageSize` offset at or beyond the number of
matching documents yields a normal return with an empty result list.  The
source computes `end = min(start + pageSize, results.size())` but never
clamps `start`, so `results.subList(start, end)` is called with
`start > end` and throws.  Concretely: the demo index has exactly one
document matching `"docker"`, and `page = 1`, `pageSize = 10` fails. -/
theorem C3_overrun_throws :
    searchPosts demoState ("docker".toList) 1 10 = Except.error SearchError.outOfRange
      ∧ searchTotal demoState ("docker".toList) = 1 := by
  constructor <;> rfl

/-! ## C4: indexing performs no validation -/

/-- C4 counterexample: indexing a document with an empty title (a missing
required field) does not fail and does not leave the index unchanged — the
entry is stored, because `indexPost` performs no validation at all. -/
theorem C4_counterexample :
    indexPost [] { id := 7, title := [], content := "body".toList, excerpt := [], tags := [] }
      ≠ [] := by
  decide

theorem indexPost_of_present (st : SearchState) (post : Post)
    (h : (st.any fun e => e.id == post.id) = true) :
    indexPost st post = st.map fun e => if e.id = post.id then postEntry post else e := by
  rw [indexPost, if_pos h]

theorem indexPost_of_absent (st : SearchState) (post : Post)
    (h : (st.any fun e => e.id == post.id) = false) :
    indexPost st post = st ++ [postEntry post] := by
  rw [indexPost, if_neg (by simp [h])]

theorem lookupId_replace_self (post : Post) (st : SearchState)
    (h : (st.any fun e => e.id == post.id) = true) :
    lookupId (st.map fun e => if e.id = post.id then postEntry post else e) post.id
      = some (postEntry post) := by
  induction st with
  | nil => simp at h
  | cons e rest ih =>
    by_cases he : e.id = post.id
    · rw [List.map_cons, if_pos he, lookupId]
      exact List.find?_cons_of_pos _ (by simp [postEntry])
    · have h2 : (rest.any fun e => e.id == post.id) = true := by
        rcases (List.any_cons (l := rest)).symm.trans h |>.symm with h3
        rw [List.any_cons, Bool.or_eq_true, beq_iff_eq] at h
        rcases h with h | h
        · exact absurd h he
        · exact h
      rw [List.map_cons, if_neg he, lookupId, List.find?_cons_of_neg _ (by simp [he])]
      exact ih h2

theorem lookupId_replace_other (post : Post) (j : Nat) (hj : j ≠ post.id) (st : SearchState) :
    lookupId (st.map fun e => if e.id = post.id then postEntry post else e) j
      = lookupId st j := by
  induction st with
  | nil => rfl
  | cons e rest ih =>
    by_cases hej : e.id = j
    · have hne : ¬ e.id = post.id := fun hc => hj (hej ▸ hc :)
      rw [List.map_cons, if_neg hne, lookupId, lookupId,
        List.find?_cons_of_pos _ (by simp [hej]), List.find?_cons_of_pos _ (by simp [hej])]
    · by_cases he : e.id = post.id
      · rw [List.map_cons, if_pos he, lookupId,
          List.find?_cons_of_neg _ (by simp [postEntry, Ne.symm hj]), lookupId,
          List.find?_cons_of_neg _ (by simp [hej])]
        exact ih
      · rw [List.map_cons, if_neg he, lookupId,
          List.find?_cons_of_neg _ (by simp [hej]), lookupId,
          List.find?_cons_of_neg _ (by simp [hej])]
        exact ih

/-- C4 amended: `indexPost` never fails and performs no validation: for
every state and every post — empty `title` or `content` included — it
stores the post's entry under the post's id (replacing any previous entry
wholesale) and leaves the entry of every other id unchanged. -/
theorem C4_index_no_validation (st : SearchState) (post : Post) :
    lookupId (indexPost st post) post.id = some (postEntry post)
    ∧ ∀ j, j ≠ post.id → lookupId (indexPost st post) j = lookupId st j := by
  constructor
  · rcases hany : st.any fun e => e.id == post.id with _ | _
    · rw [indexPost_of_absent st post hany, lookupId, List.find?_append]
      have hnone : (st.find? fun e => e.id == post.id) = none := by
        rw [List.find?_eq_none]
        intro e hme hc
        rw [List.any_eq_false] at hany
        exact hany e hme hc
      rw [hnone]
      simp [postEntry]
    · rw [indexPost_of_present st post hany]
      exact lookupId_replace_self post st hany
  · intro j hj
    rcases hany : st.any fun e => e.id == post.id with _ | _
    · rw [indexPost_of_absent st post hany, lookupId, List.find?_append]
      have hlast : (List.find? (fun e => e.id == j) [postEntry post]) = none := by
        simp [postEntry, Ne.symm hj]
      rw [hlast, lookupId]
      exact Option.or_none
    · rw [indexPost_of_present st post hany]
      exact lookupId_replace_other post j hj st

theorem C4_witness :
    (lookupId (indexPost demoState { id := 9, title := [], content := [], excerpt := [], tags := [] }) 1
        = lookupId demoState 1)
      ∧ lookupId (indexPost demoState { id := 9, title := [], content := [], excerpt := [], tags := [] }) 9
          = some (postEntry { id := 9, title := [], content := [], excerpt := [], tags := [] }) :=
  ⟨(C4_index_no_validation demoState _).2 1 (by decide),
    (C4_index_no_validation demoState _).1⟩

/-! ## C2: results are exactly the positive-score documents, in descending order -/

theorem mem_searchResultsOf (st : SearchState) (q : Str) (page ps : Nat) (r : SearchResult)
    (hr : r ∈ searchResultsOf st q page ps) :
    r ∈ performSearch st (normalizeQuery q) := by
  unfold searchResultsOf at hr
  split at hr
  · rename_i out heq
    simp only [searchPosts] at heq
    split at heq
    · cases heq
    · split at heq
      · cases heq
        exact List.drop_subset _ _ (List.take_subset _ _ hr)
      · cases heq
  · cases hr

/-- C2: for every index state and query, the ordered result set of the
search is a permutation of exactly the indexed documents scoring above 0,
it is sorted in descending score order, and a zero-score document never
appears in any returned page, whatever `page` and `pageSize` are. -/
theorem C2_results_exact (st : SearchState) (q : Str) :
    (performSearch st q).Perm
        ((st.map fun i => calculateRelevance i q).filter fun r => decide (0 < r.score))
    ∧ (performSearch st q).Sorted scoreGe
    ∧ ∀ page ps : Nat, ∀ r ∈ searchResultsOf st q page ps, 0 < r.score := by
  refine ⟨List.perm_insertionSort scoreGe _, List.sorted_insertionSort scoreGe _, ?_⟩
  intro page ps r hr
  have hmem : r ∈ performSearch st (normalizeQuery q) := mem_searchResultsOf st q page ps r hr
  have hperm := List.perm_insertionSort scoreGe
    ((st.map fun i => calculateRelevance i (normalizeQuery q)).filter fun r => decide (0 < r.score))
  have hfil : r ∈ (st.map fun i => calculateRelevance i (normalizeQuery q)).filter
      fun r => decide (0 < r.score) := hperm.mem_iff.mp hmem
  have := List.of_mem_filter hfil
  simpa using this

theorem C2_witness : 0 < (calculateRelevance demoDoc1 ("spring".toList)).score :=
  (C2_results_exact demoState ("spring".toList)).2.2 0 10
    (calculateRelevance demoDoc1 ("spring".toList)) (by decide)

/-! ## C10: the descending sort is stable -/

theorem filter_orderedInsert_score (s : Nat) (a : SearchResult) (l : List SearchResult) :
    (List.orderedInsert scoreGe a l).filter (fun r => r.score == s)
      = if a.score == s then a :: l.filter (fun r => r.score == s)
        else l.filter (fun r => r.score == s) := by
  rw [List.orderedInsert_eq_take_drop, List.filter_append, List.filter_cons]
  by_cases ha : (a.score == s) = true
  · rw [if_pos ha, if_pos ha]
    have htake : ((l.takeWhile fun b => decide ¬ scoreGe a b).filter fun r => r.score == s)
        = [] := by
      rw [List.filter_eq_nil_iff]
      intro b hb hbs
      have hpred := List.mem_takeWhile_imp hb
      rw [decide_eq_true_eq] at hpred
      rw [beq_iff_eq] at ha hbs
      exact hpred (le_of_eq (hbs.trans ha.symm))
    rw [htake, List.nil_append]
    congr 1
    conv_rhs =>
      rw [← List.takeWhile_append_dropWhile (fun b => decide ¬ scoreGe a b) l]
    rw [List.filter_append, htake, List.nil_append]
  · rw [if_neg ha, if_neg ha]
    conv_rhs =>
      rw [← List.takeWhile_append_dropWhile (fun b => decide ¬ scoreGe a b) l]
    rw [List.filter_append]

theorem filter_insertionSort_score (s : Nat) (l : List SearchResult) :
    (List.insertionSort scoreGe l).filter (fun r => r.score == s)
      = l.filter (fun r => r.score == s) := by
  induction l with
  | nil => rfl
  | cons x xs ih =>
    show (List.orderedInsert scoreGe x (List.insertionSort scoreGe xs)).filter
        (fun r => r.score == s) = _
    rw [filter_orderedInsert_score, List.filter_cons, ih]

/-- C10: the descending-score sort used by search is stable: for every
score value `s`, the matching results carrying score `s` appear in the
output in exactly the relative order their documents occupy in the index's
iteration sequence, so the tie order is deterministic for a fixed
snapshot. -/
theorem C10_sort_stable (st : SearchState) (q : Str) (s : Nat) :
    (performSearch st q).filter (fun r => r.score == s)
      = ((st.map fun i => calculateRelevance i q).filter fun r => decide (0 < r.score)).filter
          (fun r => r.score == s) :=
  filter_insertionSort_score s _

/-! ## C9: the excerpt never influences scoring, highlighting or ordering -/

theorem calculateRelevance_clearExcerpt (e : SearchIndex) (q : Str) :
    calculateRelevance (clearEntryExcerpt e) q
      = clearResultExcerpt (calculateRelevance e q) := rfl

theorem orderedInsert_map_clear (a : SearchResult) (l : List SearchResult) :
    List.orderedInsert scoreGe (clearResultExcerpt a) (l.map clearResultExcerpt)
      = (List.orderedInsert scoreGe a l).map clearResultExcerpt := by
  induction l with
  | nil => rfl
  | cons b t ih =>
    rw [List.map_cons, List.orderedInsert, List.orderedInsert]
    by_cases h : scoreGe a b
    · rw [if_pos h, if_pos (show scoreGe (clearResultExcerpt a) (clearResultExcerpt b) from h),
        List.map_cons, List.map_cons]
    · rw [if_neg h, if_neg (show ¬ scoreGe (clearResultExcerpt a) (clearResultExcerpt b) from h),
        List.map_cons, ih]

theorem insertionSort_map_clear (l : List SearchResult) :
    List.insertionSort scoreGe (l.map clearResultExcerpt)
      = (List.insertionSort scoreGe l).map clearResultExcerpt := by
  induction l with
  | nil => rfl
  | cons b t ih =>
    rw [List.map_cons, List.insertionSort, List.insertionSort, ih, orderedInsert_map_clear]

theorem performSearch_map_clear (st : SearchState) (q : Str) :
    performSearch (st.map clearEntryExcerpt) q
      = (performSearch st q).map clearResultExcerpt := by
  unfold performSearch
  rw [List.map_map]
  have h1 : ((fun index => calculateRelevance index q) ∘ clearEntryExcerpt)
      = clearResultExcerpt ∘ (fun index => calculateRelevance index q) := rfl
  rw [h1, ← List.map_map, List.filter_map]
  have h2 : ((fun r => decide (0 < r.score)) ∘ clearResultExcerpt)
      = fun r : SearchResult => decide (0 < r.score) := rfl
  rw [h2, insertionSort_map_clear]

/-- C9: the score, highlighted title and highlighted content of a document
do not depend on its excerpt: states identical except for excerpts produce
results identical except for excerpts — same documents, same order, same
`totalMatches` — and two entries agreeing on everything but the excerpt get
equal scores and equal highlighted fields. -/
theorem C9_excerpt_noninterference (st₁ st₂ : SearchState) (q : Str)
    (h : st₁.map clearEntryExcerpt = st₂.map clearEntryExcerpt) :
    (performSearch st₁ q).map clearResultExcerpt
        = (performSearch st₂ q).map clearResultExcerpt
    ∧ (performSearch st₁ q).length = (performSearch st₂ q).length
    ∧ ∀ d₁ d₂ : SearchIndex, clearEntryExcerpt d₁ = clearEntryExcerpt d₂ →
        (calculateRelevance d₁ q).score = (calculateRelevance d₂ q).score
        ∧ (calculateRelevance d₁ q).highlightedTitle
            = (calculateRelevance d₂ q).highlightedTitle
        ∧ (calculateRelevance d₁ q).highlightedContent
            = (calculateRelevance d₂ q).highlightedContent := by
  have hmain : (performSearch st₁ q).map clearResultExcerpt
      = (performSearch st₂ q).map clearResultExcerpt := by
    rw [← performSearch_map_clear, ← performSearch_map_clear, h]
  refine ⟨hmain, ?_, ?_⟩
  · have hlen := congrArg List.length hmain
    simpa using hlen
  · intro d₁ d₂ hd
    have h1 : clearResultExcerpt (calculateRelevance d₁ q)
        = clearResultExcerpt (calculateRelevance d₂ q) := by
      rw [← calculateRelevance_clearExcerpt, ← calculateRelevance_clearExcerpt, hd]
    have hs := congrArg SearchResult.score h1
    have ht := congrArg SearchResult.highlightedTitle h1
    have hc := congrArg SearchResult.highlightedContent h1
    exact ⟨hs, ht, hc⟩

theorem C9_witness :
    (performSearch [demoDoc1] ("spring".toList)).length
      = (performSearch [{ demoDoc1 with excerpt := "another excerpt".toList }]
          ("spring".toList)).length :=
  (C9_excerpt_noninterference [demoDoc1] [{ demoDoc1 with excerpt := "another excerpt".toList }]
    ("spring".toList) (by decide)).2.1

/-! ## C5: highlighting -/

theorem regexPrefixMatch_eq_ci (q : Str) (hdot : '.' ∉ q) :
    ∀ t : Str, regexPrefixMatch q t = ciPrefixMatch q t := by
  induction q with
  | nil => intro t; cases t <;> rfl
  | cons p ps ih =>
    intro t
    have hp : p ≠ '.' := fun hc => hdot (hc ▸ List.mem_cons_self p ps)
    have hps : '.' ∉ ps := fun hc => hdot (List.mem_cons_of_mem p hc)
    cases t with
    | nil => rfl
    | cons c cs =>
      show (regexCharMatches p c && regexPrefixMatch ps cs) = _
      have hhead : regexCharMatches p c = (p.toLower == c.toLower) := by
        unfold regexCharMatches
        rw [decide_eq_false hp, Bool.false_or]
        cases hb : p.toLower == c.toLower with
        | false => exact decide_eq_false (beq_eq_false_iff_ne.mp hb)
        | true => exact decide_eq_true (eq_of_beq hb)
      rw [hhead, ih hps cs]
      rfl

theorem specHighlight_of_not_contains (t q : Str)
    (h : containsStr (toLower t) (toLower q) = false) : specHighlight t q = t := by
  unfold specHighlight
  induction t with
  | nil => rfl
  | cons c rest ih =>
    simp only [toLower, List.map_cons, containsStr, Bool.or_eq_false_iff] at h
    have hci : ciPrefixMatch q (c :: rest) = false := by
      unfold ciPrefixMatch
      simpa [toLower] using h.1
    show (if !q.isEmpty && ciPrefixMatch q (c :: rest) then _ else _) = _
    rw [hci, Bool.and_false, if_neg (by simp)]
    exact congrArg (c :: ·) (ih h.2)

theorem highlightAux_eq_spec (q : Str) (hdot : '.' ∉ q) :
    ∀ (t : Str) (skip : Nat), highlightAux q t skip = specHighlightAux q t skip := by
  intro t
  induction t with
  | nil => intro skip; rfl
  | cons c rest ih =>
    intro skip
    cases skip with
    | succ k => exact ih k
    | zero =>
      show (if !q.isEmpty && regexPrefixMatch q (c :: rest) then _ else _)
        = (if !q.isEmpty && ciPrefixMatch q (c :: rest) then _ else _)
      rw [regexPrefixMatch_eq_ci q hdot (c :: rest)]
      by_cases hc : (!q.isEmpty && ciPrefixMatch q (c :: rest)) = true
      · rw [if_pos hc, if_pos hc, ih (q.length - 1)]
      · rw [if_neg hc, if_neg hc, ih 0]

/-- C5 counterexample: for the non-blank (and already normalized) query
`"a.a"` and the stored title `"aba a.a"`, the interpolated regex also
matches the span `"aba"`, which is not an occurrence of the query as a
contiguous substring — so the returned highlighted title differs from
wrapping exactly the occurrences. -/
theorem C5_counterexample :
    (calculateRelevance demoDotDoc ("a.a".toList)).highlightedTitle
      ≠ specHighlight demoDotDoc.title ("a.a".toList) := by
  decide

/-- C5 amended: for every non-blank query containing no regex
metacharacter, the returned `highlightedTitle` and `highlightedContent`
wrap every (leftmost, non-overlapping) case-insensitive occurrence of the
query as a contiguous substring in the highlight marker, preserving the
original casing of the matched span and leaving all other characters
unchanged, and a field with no occurrence is returned exactly as stored;
because the query is spliced into the regex pattern, a query containing
metacharacters can mark non-occurrences (or make the pattern fail to
compile). -/
theorem C5_highlight_literal (d : SearchIndex) (q : Str)
    (hplain : regexPlain q = true) (hq : q ≠ []) :
    (calculateRelevance d q).highlightedTitle = specHighlight d.title q
    ∧ (calculateRelevance d q).highlightedContent = specHighlight d.content q := by
  have hdot : '.' ∉ q := by
    intro hc
    rw [regexPlain, Bool.and_eq_true] at hplain
    exact absurd hc (by simpa using hplain.2)
  constructor
  · show (if containsStr (toLower d.title) (toLower q) then highlightText d.title q
        else d.title) = _
    by_cases hc : containsStr (toLower d.title) (toLower q) = true
    · rw [if_pos hc]
      exact highlightAux_eq_spec q hdot d.title 0
    · rw [if_neg (by simpa using hc),
        specHighlight_of_not_contains d.title q (Bool.not_eq_true _ |>.mp hc)]
  · show (if containsStr (toLower d.content) (toLower q) then highlightText d.content q
        else d.content) = _
    by_cases hc : containsStr (toLower d.content) (toLower q) = true
    · rw [if_pos hc]
      exact highlightAux_eq_spec q hdot d.content 0
    · rw [if_neg (by simpa using hc),
        specHighlight_of_not_contains d.content q (Bool.not_eq_true _ |>.mp hc)]

theorem C5_witness :
    (calculateRelevance demoApiDoc ("api".toList)).highlightedTitle
      = "Building an <mark>API</mark> Gateway".toList :=
  ((C5_highlight_literal demoApiDoc ("api".toList) (by decide) (by decide)).1).trans (by decide)

/-! ## C6: pagination consistency -/

theorem join_range_slices {α : Type} (ps : Nat) (hps : 1 ≤ ps) :
    ∀ (n : Nat) (l : List α), l.length ≤ n →
      ((List.range ((l.length + ps - 1) / ps)).map fun p => (l.drop (p * ps)).take ps).flatten
        = l := by
  intro n
  induction n with
  | zero =>
    intro l hl
    have hnil : l = [] := List.eq_nil_of_length_eq_zero (Nat.le_zero.mp hl)
    subst hnil
    simp [Nat.div_eq_of_lt (show ps - 1 < ps by omega)]
  | succ n ih =>
    intro l hl
    cases l with
    | nil => simp [Nat.div_eq_of_lt (show ps - 1 < ps by omega)]
    | cons a t =>
      have hL : 1 ≤ (a :: t).length := by simp
      have hnum : ((a :: t).length + ps - 1) / ps
          = (((a :: t).drop ps).length + ps - 1) / ps + 1 := by
        rw [List.length_drop]
        rcases le_or_lt ps (a :: t).length with h | h
        · have e1 : (a :: t).length - ps + ps - 1 = (a :: t).length - 1 := by omega
          have e2 : (a :: t).length + ps - 1 = ((a :: t).length - 1) + ps := by omega
          rw [e1, e2, Nat.add_div_right _ hps]
        · have e1 : (a :: t).length - ps = 0 := by omega
          rw [e1, Nat.zero_add, Nat.div_eq_of_lt (show ps - 1 < ps by omega)]
          have e2 : (a :: t).length + ps - 1 = ((a :: t).length - 1) + ps := by omega
          rw [e2, Nat.add_div_right _ hps,
            Nat.div_eq_of_lt (show (a :: t).length - 1 < ps by omega)]
      rw [hnum, List.range_succ_eq_map, List.map_cons, List.flatten_cons, List.map_map]
      have hcomp : ((fun p => ((a :: t).drop (p * ps)).take ps) ∘ Nat.succ)
          = fun p => (((a :: t).drop ps).drop (p * ps)).take ps := by
        funext p
        simp only [Function.comp_apply]
        rw [List.drop_drop]
        rw [show ps + p * ps = Nat.succ p * ps from by rw [Nat.succ_mul, Nat.add_comm]]
      rw [hcomp, ih ((a :: t).drop ps) (by rw [List.length_drop]; omega)]
      rw [Nat.zero_mul, List.drop_zero, List.take_append_drop]

theorem searchPosts_ok_slice (st : SearchState) (q : Str) (page ps : Nat)
    (hq : trimJava q ≠ [])
    (hle : page * ps ≤ (performSearch st (normalizeQuery q)).length) :
    searchPosts st q page ps
      = Except.ok
          { results := ((performSearch st (normalizeQuery q)).drop (page * ps)).take ps
            totalMatches := (performSearch st (normalizeQuery q)).length } := by
  rw [searchPosts, if_neg (by simpa [List.isEmpty_iff] using hq)]
  have hstop : page * ps ≤ min (page * ps + ps) (performSearch st (normalizeQuery q)).length :=
    le_min (Nat.le_add_right _ _) hle
  rw [if_pos hstop]
  congr 1
  congr 1
  rw [List.take_eq_take]
  rw [List.length_drop]
  omega

theorem searchTotalOf_eq (st : SearchState) (q : Str) (page ps : Nat)
    (hq : trimJava q ≠ []) (hle : page * ps ≤ searchTotal st q) :
    searchTotalOf st q page ps = some (searchTotal st q) := by
  rw [searchTotalOf, searchPosts_ok_slice st q page ps hq hle]
  rfl

theorem searchResultsOf_eq_slice (st : SearchState) (q : Str) (page ps : Nat)
    (hq : trimJava q ≠ []) (hle : page * ps ≤ searchTotal st q) :
    searchResultsOf st q page ps
      = ((performSearch st (normalizeQuery q)).drop (page * ps)).take ps := by
  rw [searchResultsOf, searchPosts_ok_slice st q page ps hq hle]

/-- C6: for a fixed state and non-blank query, concatenating the result
pages `0 .. ceil(totalMatches / pageSize) - 1` equals the single page of
size `totalMatches`; every call whose offset is within range reports the
same `totalMatches`, which equals the count of documents scoring above 0,
independent of `page` and `pageSize`. -/
theorem C6_pagination_consistency (st : SearchState) (q : Str) (ps : Nat)
    (hq : trimJava q ≠ []) (hps : 1 ≤ ps) :
    ((List.range ((searchTotal st q + ps - 1) / ps)).map
        fun p => searchResultsOf st q p ps).flatten
      = searchResultsOf st q 0 (searchTotal st q)
    ∧ (∀ page ps2 : Nat, page * ps2 ≤ searchTotal st q →
        searchTotalOf st q page ps2 = some (searchTotal st q))
    ∧ searchTotal st q
      = ((st.map fun i => calculateRelevance i (normalizeQuery q)).filter
          fun r => decide (0 < r.score)).length := by
  refine ⟨?_, fun page ps2 h => searchTotalOf_eq st q page ps2 hq h, ?_⟩
  · have hmap : (List.range ((searchTotal st q + ps - 1) / ps)).map
          (fun p => searchResultsOf st q p ps)
        = (List.range ((searchTotal st q + ps - 1) / ps)).map
          (fun p => ((performSearch st (normalizeQuery q)).drop (p * ps)).take ps) := by
      apply List.map_congr_left
      intro p hp
      apply searchResultsOf_eq_slice st q p ps hq
      rw [List.mem_range] at hp
      rcases Nat.eq_zero_or_pos (searchTotal st q) with hL | hL
      · rw [hL, Nat.zero_add, Nat.div_eq_of_lt (show ps - 1 < ps by omega)] at hp
        exact absurd hp (Nat.not_lt_zero p)
      · have h1 : searchTotal st q + ps - 1 = (searchTotal st q - 1) + ps := by omega
        rw [h1, Nat.add_div_right _ hps] at hp
        have h2 : p ≤ (searchTotal st q - 1) / ps := by omega
        have h3 := (Nat.le_div_iff_mul_le hps).mp h2
        omega
    rw [hmap, searchResultsOf_eq_slice st q 0 (searchTotal st q) hq (by simp),
      Nat.zero_mul, List.drop_zero]
    have hj := join_range_slices ps hps (performSearch st (normalizeQuery q)).length
      (performSearch st (normalizeQuery q)) le_rfl
    rw [show searchTotal st q = (performSearch st (normalizeQuery q)).length from rfl,
      List.take_length]
    exact hj
  · exact (List.perm_insertionSort scoreGe _).length_eq

theorem C6_witness :
    searchTotalOf demoState ("spring".toList) 0 10
      = some (searchTotal demoState ("spring".toList)) :=
  (C6_pagination_consistency demoState ("spring".toList) 10 (by decide) (by decide)).2.1 0 10
    (by decide)

/-! ## C8: removal is total and complete -/

theorem performSearch_length_countP (st : SearchState) (q : Str) :
    (performSearch st q).length
      = st.countP fun e => decide (0 < (calculateRelevance e q).score) := by
  rw [performSearch, (List.perm_insertionSort scoreGe _).length_eq,
    ← List.countP_eq_length_filter, List.countP_map]
  rfl

theorem countP_filter_remove (postId : Nat) (q : Str) (st : SearchState)
    (hnodup : (st.map SearchIndex.id).Nodup) :
    ((removePostFromIndex st postId).countP
        fun e => decide (0 < (calculateRelevance e q).score))
      = (st.countP fun e => decide (0 < (calculateRelevance e q).score))
        - (if ∃ e ∈ st, e.id = postId ∧ 0 < (calculateRelevance e q).score then 1 else 0) := by
  induction st with
  | nil => simp [removePostFromIndex]
  | cons e t ih =>
    rw [List.map_cons, List.nodup_cons] at hnodup
    obtain ⟨hhead, htail⟩ := hnodup
    by_cases he : e.id = postId
    · have hfe : ((e.id != postId) : Bool) = false := by simp [he]
      have htf : (removePostFromIndex t postId) = t := by
        rw [removePostFromIndex, List.filter_eq_self]
        intro x hx
        simp only [bne_iff_ne, ne_eq, decide_eq_true_eq]
        intro hc
        exact hhead (by rw [he, ← hc]; exact List.mem_map_of_mem SearchIndex.id hx)
      have hnot : ¬ ∃ x ∈ t, x.id = postId ∧ 0 < (calculateRelevance x q).score := by
        rintro ⟨x, hx, hxid, _⟩
        exact hhead (by rw [he, ← hxid]; exact List.mem_map_of_mem SearchIndex.id hx)
      rw [removePostFromIndex, List.filter_cons_of_neg (by simpa using hfe)]
      rw [← removePostFromIndex, htf, List.countP_cons]
      have hex : (∃ x ∈ e :: t, x.id = postId ∧ 0 < (calculateRelevance x q).score)
          ↔ 0 < (calculateRelevance e q).score := by
        constructor
        · rintro ⟨x, hx, hxid, hxs⟩
          rcases List.mem_cons.mp hx with hx | hx
          · exact hx ▸ hxs
          · exact absurd ⟨x, hx, hxid, hxs⟩ hnot
        · intro hs
          exact ⟨e, List.mem_cons_self e t, he, hs⟩
      by_cases hs : 0 < (calculateRelevance e q).score
      · rw [if_pos (hex.mpr hs), if_pos (by simpa using hs)]
        omega
      · rw [if_neg (fun hc => hs (hex.mp hc)), if_neg (by simpa using hs)]
        omega
    · have hfe : ((e.id != postId) : Bool) = true := by simp [he]
      rw [removePostFromIndex, List.filter_cons_of_pos (by simpa using hfe)]
      rw [List.countP_cons, ← removePostFromIndex, ih htail, List.countP_cons]
      have hex : (∃ x ∈ e :: t, x.id = postId ∧ 0 < (calculateRelevance x q).score)
          ↔ ∃ x ∈ t, x.id = postId ∧ 0 < (calculateRelevance x q).score := by
        constructor
        · rintro ⟨x, hx, hxid, hxs⟩
          rcases List.mem_cons.mp hx with hx | hx
          · exact absurd (hx ▸ hxid) he
          · exact ⟨x, hx, hxid, hxs⟩
        · rintro ⟨x, hx, hxid, hxs⟩
          exact ⟨x, List.mem_cons_of_mem e hx, hxid, hxs⟩
      by_cases hext : ∃ x ∈ t, x.id = postId ∧ 0 < (calculateRelevance x q).score
      · obtain ⟨x, hx, hxid, hxs⟩ := hext
        have hpos : 0 < t.countP fun e => decide (0 < (calculateRelevance e q).score) :=
          List.countP_pos_iff.mpr ⟨x, hx, by simpa using hxs⟩
        rw [if_pos (hex.mpr ⟨x, hx, hxid, hxs⟩), if_pos ⟨x, hx, hxid, hxs⟩]
        omega
      · rw [if_neg (fun hc => hext (hex.mp hc)), if_neg hext]
        omega

/-- C8: `removePostFromIndex` is total — it returns normally whether or not
the id is indexed, and is a no-op on the index when the id is absent;
afterwards the index holds no entry for the id, no search result of any
page references the id, and the match count drops by one exactly when the
id previously matched (under the map invariant of one entry per id). -/
theorem C8_remove_complete (st : SearchState) (postId : Nat) (q : Str)
    (hnodup : (st.map SearchIndex.id).Nodup) :
    lookupId (removePostFromIndex st postId) postId = none
    ∧ ((¬ ∃ e ∈ st, e.id = postId) → removePostFromIndex st postId = st)
    ∧ (∀ page ps : Nat, ∀ r ∈ searchResultsOf (removePostFromIndex st postId) q page ps,
        r.id ≠ postId)
    ∧ (performSearch (removePostFromIndex st postId) (normalizeQuery q)).length
      = (performSearch st (normalizeQuery q)).length
        - (if ∃ e ∈ st, e.id = postId ∧ 0 < (calculateRelevance e (normalizeQuery q)).score
           then 1 else 0) := by
  refine ⟨?_, ?_, ?_, ?_⟩
  · rw [removePostFromIndex, lookupId, List.find?_eq_none]
    intro e he
    have hf := List.of_mem_filter he
    simpa using hf
  · intro hne
    rw [removePostFromIndex, List.filter_eq_self]
    intro e he
    simpa using fun hc => hne ⟨e, he, hc⟩
  · intro page ps r hr
    have hmem := mem_searchResultsOf _ q page ps r hr
    have hperm := List.perm_insertionSort scoreGe
      (((removePostFromIndex st postId).map
          fun i => calculateRelevance i (normalizeQuery q)).filter
        fun r => decide (0 < r.score))
    have hf := hperm.mem_iff.mp hmem
    have hm := List.mem_of_mem_filter hf
    rw [List.mem_map] at hm
    obtain ⟨e, he, hre⟩ := hm
    rw [removePostFromIndex] at he
    have hid : (e.id != postId) = true := (List.mem_filter.mp he).2
    rw [← hre]
    simpa using hid
  · rw [performSearch_length_countP, performSearch_length_countP]
    exact countP_filter_remove postId (normalizeQuery q) st hnodup

theorem C8_witness : lookupId (removePostFromIndex demoState 2) 2 = none :=
  (C8_remove_complete demoState 2 ("spring".toList) (by decide)).1

end BlogSearch
